import Mathlib

set_option maxHeartbeats 1000000

/-!
Verification of the visited-link matching engine.

The JavaScript source (background service worker plus the shared
`UrlNormalizer` utility) is embedded shallowly:

* URL strings are Lean `String`s; the parts of a parsed URL live in `URLObj`.
* `parseUrl` / `serializeURL` model the platform WHATWG `new URL(...)` parser
  and serializer on the fragment of the language the extension exercises:
  ASCII input in the canonical form `scheme://host[:port][/path][?query][#fragment]`
  with lower-case scheme and host, no user-info, no IPv6 bracket hosts and no
  percent-decoding (keys, values, path and fragment are kept byte-for-byte).
  A string with a valid non-http(s) scheme parses to the `nonspecial`
  constructor whose payload is opaque, mirroring how the code only ever reads
  `protocol` off such URLs.  Default ports are dropped exactly as the platform
  does for the canonical textual form ("80" for http, "443" for https).
* The WHATWG `hash` getter returns "" when the fragment is null or empty and
  "#" ++ fragment otherwise; `hashOf` models exactly that (the distinction
  between a null fragment and an empty one is kept via `Option`).
* `chrome.history.search` resolving its callback is modelled by a function
  `history : String → Option (List String)`; `none` models a failed query,
  which the code's `results ? results.map(item => item.url) : []` turns into
  the empty list (`queryHistoryByDomain`).
* The JavaScript `Map` (insertion-ordered keys) and `Set` (insertion-ordered,
  duplicate-free) are modelled by `dedupFirst` and `List.filter` grouping.
* `searchParams.sort()` is a stable sort by name over code units; it is
  modelled by `List.insertionSort` (stable) under the lexicographic order
  `lexLeB` on the name.  After `delete`/`sort`, the platform re-serializes the
  query from the parameter list, writing every pair as `name=value` and
  dropping the `?` when the list is empty; `serializeURL` does the same.
* The `urlToOriginals` map built in `checkVisitedUrls` (lines 61, 74-78) is
  never read afterwards and has no observable effect, so it is not modelled.
-/

abbrev ParamP := List Char × List Char

def isSchemeChar (c : Char) : Bool :=
  (decide ('a' ≤ c) && decide (c ≤ 'z')) || c.isDigit ||
    decide (c = '+') || decide (c = '-') || decide (c = '.')

def isLowerAlpha (c : Char) : Bool := decide ('a' ≤ c) && decide (c ≤ 'z')

def isAuthorityChar (c : Char) : Bool :=
  decide (c ≠ '/') && decide (c ≠ '?') && decide (c ≠ '#')

def isPathChar (c : Char) : Bool := decide (c ≠ '?') && decide (c ≠ '#')

/-- Split a character list at every occurrence of the separator `c`;
`n` separators yield `n + 1` pieces (matching how `URLSearchParams`
splits a query at each `&`). -/
def splitSep (c : Char) : List Char → List (List Char)
  | [] => [[]]
  | a :: rest =>
    if a = c then [] :: splitSep c rest
    else
      match splitSep c rest with
      | [] => [[a]]
      | p :: ps => (a :: p) :: ps

/-- Join pieces with the separator `c` between them. -/
def joinSep (c : Char) : List (List Char) → List Char
  | [] => []
  | [p] => p
  | p :: ps => p ++ c :: joinSep c ps

/-- One `name=value` segment of a query string, split at the first `=`
(no `=` means an empty value), as `URLSearchParams` does. -/
def parsePair (seg : List Char) : ParamP :=
  (seg.takeWhile (fun c => decide (c ≠ '=')),
   (seg.dropWhile (fun c => decide (c ≠ '='))).tail)

/-- The `URLSearchParams` parse of a raw query: split at `&`, drop empty
segments, split each segment at its first `=`. -/
def parseParamsList (q : List Char) : List ParamP :=
  ((splitSep '&' q).filter (fun seg => decide (seg ≠ []))).map parsePair

/-- The `application/x-www-form-urlencoded` serializer on the modelled
fragment: every pair is written `name=value` and pairs are joined by `&`. -/
def serializeParams (ps : List ParamP) : List Char :=
  joinSep '&' (ps.map (fun p => p.1 ++ '=' :: p.2))

/-- A parsed URL.  `special` holds the components of an http(s) URL
(`fragment = none` models a null fragment, `some f` a present one, so a
trailing lone `#` is `some []`).  `nonspecial` models any other successfully
parsed scheme, with the part after the colon kept opaque. -/
inductive URLObj : Type where
  | special (scheme host port path : List Char) (params : List ParamP)
      (fragment : Option (List Char))
  | nonspecial (scheme rest : List Char)
deriving DecidableEq

def isDefaultPort (scheme port : List Char) : Bool :=
  (decide (scheme = ("http").data) && decide (port = ("80").data)) ||
  (decide (scheme = ("https").data) && decide (port = ("443").data))

/-- The path component computed from the characters after the authority:
an empty path serializes (and reparses) as the root path `/`. -/
def pathOf (afterAuth : List Char) : List Char :=
  if afterAuth.takeWhile isPathChar = [] then ['/'] else afterAuth.takeWhile isPathChar

/-- The path/query/fragment tail of an http(s) URL, starting right after the
authority (so at a `/`, a `?`, a `#` or the end of the string). -/
def parseAfterAuth (scheme host port : List Char) (afterAuth : List Char) : Option URLObj :=
  match afterAuth.dropWhile isPathChar with
  | [] => some (.special scheme host port (pathOf afterAuth) [] none)
  | c :: rest2 =>
    if c = '?' then
      some (.special scheme host port (pathOf afterAuth)
        (parseParamsList (rest2.takeWhile (fun x => decide (x ≠ '#'))))
        (if rest2.dropWhile (fun x => decide (x ≠ '#')) = [] then none
         else some (rest2.dropWhile (fun x => decide (x ≠ '#'))).tail))
    else if c = '#' then some (.special scheme host port (pathOf afterAuth) [] (some rest2))
    else some (.special scheme host port (pathOf afterAuth) [] none)

/-- The authority checks: no user-info marker, a non-empty host (everything
up to the first colon), a numeric port after it; the canonical default port
is dropped, as the platform serializer does. -/
def parseAuthority (scheme auth afterAuth : List Char) : Option URLObj :=
  if '@' ∈ auth then none
  else if auth.takeWhile (fun c => decide (c ≠ ':')) = [] then none
  else if ((auth.dropWhile (fun c => decide (c ≠ ':'))).tail).all Char.isDigit then
    parseAfterAuth scheme (auth.takeWhile (fun c => decide (c ≠ ':')))
      (if isDefaultPort scheme ((auth.dropWhile (fun c => decide (c ≠ ':'))).tail) then []
       else (auth.dropWhile (fun c => decide (c ≠ ':'))).tail)
      afterAuth
  else none

/-- The authority/path/query/fragment part of parsing an http(s) URL, after
the scheme and the colon have been consumed: a `//` marker followed by the
authority, which runs up to the first `/`, `?` or `#`. -/
def parseSpecialRest (scheme : List Char) (s : List Char) : Option URLObj :=
  match s with
  | c1 :: c2 :: rest =>
    if c1 = '/' ∧ c2 = '/' then
      parseAuthority scheme (rest.takeWhile isAuthorityChar) (rest.dropWhile isAuthorityChar)
    else none
  | _ => none

/-- The scheme-validity check once the scheme characters and the remainder
after the colon are known. -/
def parseUrlAux (schemeChars rest : List Char) : Option URLObj :=
  match schemeChars.head? with
  | none => none
  | some c0 =>
    if isLowerAlpha c0 = true then
      if schemeChars = ("http").data ∨ schemeChars = ("https").data then
        parseSpecialRest schemeChars rest
      else some (.nonspecial schemeChars rest)
    else none

/-- The modelled `new URL(s)`: `none` is a parse failure (the constructor
throwing). -/
def parseUrl (s : List Char) : Option URLObj :=
  match s.dropWhile isSchemeChar with
  | c :: rest => if c = ':' then parseUrlAux (s.takeWhile isSchemeChar) rest else none
  | [] => none

def portPart (port : List Char) : List Char := if port = [] then [] else ':' :: port

def queryPart (ps : List ParamP) : List Char :=
  if ps = [] then [] else '?' :: serializeParams ps

def fragPart : Option (List Char) → List Char
  | none => []
  | some f => '#' :: f

/-- The WHATWG serializer (`url.toString()`) on the modelled fragment, with
the query re-serialized from the parameter list as the platform does after
`searchParams.sort()` (a pair is written `name=value`, the `?` is dropped
when no parameter remains, a null fragment writes nothing and a present
fragment writes `#` followed by its text). -/
def serializeURL : URLObj → List Char
  | .special scheme host port path ps frag =>
    scheme ++ ':' :: '/' :: '/' ::
      (host ++ (portPart port ++ (path ++ (queryPart ps ++ fragPart frag))))
  | .nonspecial scheme rest => scheme ++ ':' :: rest

def schemeOf : URLObj → List Char
  | .special sch _ _ _ _ _ => sch
  | .nonspecial sch _ => sch

/-- The `protocol` getter: the scheme followed by a colon. -/
def protocolOf (u : URLObj) : List Char := schemeOf u ++ [':']

/-- The `hostname` getter (empty for non-special URLs in the modelled
fragment, as the platform reports for e.g. `javascript:` URLs). -/
def hostnameOf : URLObj → List Char
  | .special _ host _ _ _ _ => host
  | .nonspecial _ _ => []

/-- The WHATWG `hash` getter: "" when the fragment is null or empty,
otherwise `#` followed by the fragment. -/
def hashOf : URLObj → List Char
  | .special _ _ _ _ _ none => []
  | .special _ _ _ _ _ (some []) => []
  | .special _ _ _ _ _ (some (c :: f)) => '#' :: c :: f
  | .nonspecial _ _ => []

/-- The `searchParams` entries of a parsed URL (empty for non-special URLs). -/
def paramsOf : URLObj → List ParamP
  | .special _ _ _ _ ps _ => ps
  | .nonspecial _ _ => []

def VALID_PROTOCOLS : List (List Char) := [("http:").data, ("https:").data]

/-- `key.toLowerCase()` on the modelled (ASCII) fragment. -/
def lowerKey (k : List Char) : List Char := k.map Char.toLower

/-- Lines 223-232 of the service worker: when the ignore list is non-empty,
collect every present key whose lower-cased form is in the lower-cased
ignore set (`keysToDelete`) and delete every parameter carrying one of the
collected keys. -/
def filterIgnored (ps : List ParamP) (ignoreParams : List (List Char)) : List ParamP :=
  if 0 < ignoreParams.length then
    let ignoreSet := ignoreParams.map lowerKey
    let keysToDelete := (ps.map Prod.fst).filter (fun k => decide (lowerKey k ∈ ignoreSet))
    ps.filter (fun p => decide (p.1 ∉ keysToDelete))
  else ps

/-- Lexicographic code-unit comparison of parameter names, the comparison
`searchParams.sort()` uses. -/
def lexLeB : List Char → List Char → Bool
  | [], _ => true
  | _ :: _, [] => false
  | a :: as, b :: bs => if a < b then true else if a = b then lexLeB as bs else false

def paramLe (p q : ParamP) : Prop := lexLeB p.1 q.1 = true

instance decParamLe : DecidableRel paramLe := fun p q => by
  unfold paramLe; infer_instance

/-- `searchParams.sort()`: a stable sort by name. -/
def sortParams (ps : List ParamP) : List ParamP := List.insertionSort paramLe ps

/-- Lines 223-239 of the service worker on a successfully parsed http(s)
URL object: delete ignored parameters, sort the remainder, and clear the
hash when the `hash` getter reads exactly "#". -/
def normalizeObj (u : URLObj) (ignoreParams : List (List Char)) : URLObj :=
  match u with
  | .special sch host port path ps frag =>
    .special sch host port path (sortParams (filterIgnored ps ignoreParams))
      (if hashOf (.special sch host port path ps frag) = ['#'] then none else frag)
  | .nonspecial sch rest => .nonspecial sch rest

/-- `UrlNormalizer.normalizeUrl` (url-normalizer.js lines 215-245). -/
def normalizeUrl (url : String) (ignoreParams : List String) : String :=
  match parseUrl url.data with
  | none => url
  | some u =>
    if protocolOf u ∈ VALID_PROTOCOLS then
      String.mk (serializeURL (normalizeObj u (ignoreParams.map String.data)))
    else url

/-- `UrlNormalizer.extractDomain` (lines 252-259). -/
def extractDomain (url : String) : Option String :=
  (parseUrl url.data).map (fun u => String.mk (hostnameOf u))

/-- `UrlNormalizer.isValidHttpUrl` (lines 266-273). -/
def isValidHttpUrl (url : String) : Bool :=
  match parseUrl url.data with
  | none => false
  | some u => decide (protocolOf u ∈ VALID_PROTOCOLS)

/-- The domain the grouping step keys a candidate by; the JavaScript guard
`if (!domain) continue` treats both a parse failure (null) and an empty
hostname as falsy, so both are collapsed to "". -/
def domainOf (url : String) : String :=
  match extractDomain url with
  | none => ""
  | some d => d

/-- Insertion-ordered deduplication with an accumulator of already-seen
elements: the membership structure of a JavaScript `Set`/`Map` fed by
repeated `add`/`set` calls (first occurrence kept). -/
def dedupFirstAux (seen : List String) : List String → List String
  | [] => []
  | x :: xs => if x ∈ seen then dedupFirstAux seen xs else x :: dedupFirstAux (x :: seen) xs

def dedupFirst (l : List String) : List String := dedupFirstAux [] l

structure Config where
  enabled : Bool
  ignoreParams : List String
  highlightTextColor : String
deriving DecidableEq

def DEFAULT_CONFIG : Config :=
  { enabled := true, ignoreParams := [], highlightTextColor := "#C58AF9" }

/-- `queryHistoryByDomain` (service worker lines 35-49): the history store
answers a per-domain query with a list of URLs, or fails; the code's
`results ? results.map(item => item.url) : []` turns a failure into `[]`. -/
def queryHistoryByDomain (history : String → Option (List String)) (domain : String) :
    List String :=
  (history domain).getD []

/-- The candidates surviving the two guards of the grouping loop
(lines 63-67): a valid http(s) URL with a truthy domain. -/
def validCandidates (urls : List String) : List String :=
  urls.filter (fun u => isValidHttpUrl u && decide (domainOf u ≠ ""))

/-- The keys of the `domainGroups` map, in insertion order. -/
def groupDomains (urls : List String) : List String :=
  dedupFirst ((validCandidates urls).map domainOf)

/-- The entry of the `domainGroups` map for domain `d` (lines 69-72). -/
def domainGroup (urls : List String) (d : String) : List String :=
  (validCandidates urls).filter (fun u => decide (domainOf u = d))

/-- The per-domain matching callback (lines 87-101): normalize the domain's
history, then keep every page URL of the group whose normalized form occurs
in the normalized history. -/
def domainMatches (history : String → Option (List String)) (ignoreParams : List String)
    (urls : List String) (d : String) : List String :=
  (domainGroup urls d).filter
    (fun u => decide (normalizeUrl u ignoreParams ∈
      (queryHistoryByDomain history d).map (fun h => normalizeUrl h ignoreParams)))

/-- The concatenation of every domain group, the domains taken in insertion
order: what the grouping step of lines 58-79 hands to the matching step. -/
def allGroups (urls : List String) : List String :=
  (groupDomains urls).flatMap (domainGroup urls)

/-- `checkVisitedUrls` (lines 58-107): group candidates by domain, match each
group against its domain's history query, and collect the hits into the
`visitedOriginalUrls` set. -/
def checkVisitedUrls (urls : List String) (ignoreParams : List String)
    (history : String → Option (List String)) : List String :=
  dedupFirst ((groupDomains urls).flatMap (domainMatches history ignoreParams urls))

/-- `handleCheckVisited` (lines 142-160) with the configuration read passed
in explicitly: a disabled configuration short-circuits to an empty visited
set without touching the history store. -/
def handleCheckVisited (config : Config) (urls : List String)
    (history : String → Option (List String)) : List String × Config :=
  if config.enabled = false then ([], config)
  else (checkVisitedUrls urls config.ignoreParams history, config)

/-- The characters a query parameter produced by `parseUrl` can contain:
no separator may occur in a name, no `&` or `#` in a value. -/
def ParamOk (p : ParamP) : Prop :=
  ('&' ∉ p.1 ∧ '=' ∉ p.1 ∧ '#' ∉ p.1) ∧ ('&' ∉ p.2 ∧ '#' ∉ p.2)

def HostOk (host : List Char) : Prop :=
  host ≠ [] ∧ ∀ c ∈ host, c ≠ '/' ∧ c ≠ '?' ∧ c ≠ '#' ∧ c ≠ ':' ∧ c ≠ '@'

def PortOk (scheme port : List Char) : Prop :=
  (∀ c ∈ port, c.isDigit = true) ∧ isDefaultPort scheme port = false

def PathOk (path : List Char) : Prop :=
  path.head? = some '/' ∧ ∀ c ∈ path, c ≠ '?' ∧ c ≠ '#'

/-- The invariants every `parseUrl` result satisfies; on this set the
serializer is a right inverse of the parser. -/
def WF : URLObj → Prop
  | .special scheme host port path ps _ =>
    (scheme = ("http").data ∨ scheme = ("https").data) ∧
      HostOk host ∧ PortOk scheme port ∧ PathOk path ∧ ∀ p ∈ ps, ParamOk p
  | .nonspecial _ _ => True

/-! ### Generic list lemmas -/

theorem takeWhile_append_all {p : Char → Bool} {l1 : List Char} (l2 : List Char)
    (h : ∀ a ∈ l1, p a = true) :
    (l1 ++ l2).takeWhile p = l1 ++ l2.takeWhile p := by
  induction l1 with
  | nil => simp
  | cons a t ih =>
    rw [List.cons_append, List.takeWhile_cons_of_pos (h a (List.mem_cons_self a t)),
      ih (fun x hx => h x (List.mem_cons_of_mem a hx)), List.cons_append]

theorem dropWhile_append_all {p : Char → Bool} {l1 : List Char} (l2 : List Char)
    (h : ∀ a ∈ l1, p a = true) :
    (l1 ++ l2).dropWhile p = l2.dropWhile p := by
  induction l1 with
  | nil => simp
  | cons a t ih =>
    rw [List.cons_append, List.dropWhile_cons_of_pos (h a (List.mem_cons_self a t)),
      ih (fun x hx => h x (List.mem_cons_of_mem a hx))]

theorem takeWhile_all {p : Char → Bool} {l : List Char} (h : ∀ a ∈ l, p a = true) :
    l.takeWhile p = l := by
  have := takeWhile_append_all (p := p) [] h
  simpa using this

theorem dropWhile_all {p : Char → Bool} {l : List Char} (h : ∀ a ∈ l, p a = true) :
    l.dropWhile p = [] := by
  have := dropWhile_append_all (p := p) [] h
  simpa using this

theorem joinSep_pair (c : Char) (p q : List Char) (L : List (List Char)) :
    joinSep c (p :: q :: L) = p ++ c :: joinSep c (q :: L) := rfl

theorem splitSep_ne_nil (c : Char) (l : List Char) : splitSep c l ≠ [] := by
  induction l with
  | nil => simp [splitSep]
  | cons a t ih =>
    rw [splitSep]
    by_cases h : a = c
    · simp [h]
    · simp only [if_neg h]
      rcases hs : splitSep c t with _ | ⟨p, ps⟩
      · exact absurd hs ih
      · simp

theorem splitSep_no_sep {c : Char} {l : List Char} (h : c ∉ l) : splitSep c l = [l] := by
  induction l with
  | nil => rfl
  | cons a t ih =>
    have hac : ¬ a = c := fun e => h (e ▸ List.mem_cons_self a t)
    rw [splitSep, if_neg hac, ih (fun hc => h (List.mem_cons_of_mem a hc))]

theorem splitSep_append_sep {c : Char} {p : List Char} (t : List Char) (h : c ∉ p) :
    splitSep c (p ++ c :: t) = p :: splitSep c t := by
  induction p with
  | nil => simp [splitSep]
  | cons a q ih =>
    have hac : ¬ a = c := fun e => h (e ▸ List.mem_cons_self a q)
    rw [List.cons_append, splitSep, if_neg hac,
      ih (fun hc => h (List.mem_cons_of_mem a hc))]

theorem splitSep_joinSep {c : Char} :
    ∀ {L : List (List Char)}, L ≠ [] → (∀ p ∈ L, c ∉ p) →
      splitSep c (joinSep c L) = L
  | [], h, _ => absurd rfl h
  | [p], _, hp => by
    rw [joinSep, splitSep_no_sep (hp p (List.mem_singleton_self p))]
  | p :: q :: L, _, hp => by
    rw [joinSep_pair, splitSep_append_sep _ (hp p (List.mem_cons_self _ _)),
      splitSep_joinSep (List.cons_ne_nil q L) (fun x hx => hp x (List.mem_cons_of_mem p hx))]

theorem mem_splitSep {c : Char} {l q : List Char} (h : q ∈ splitSep c l) :
    c ∉ q ∧ ∀ a ∈ q, a ∈ l := by
  induction l generalizing q with
  | nil =>
    simp only [splitSep, List.mem_singleton] at h
    subst h; simp
  | cons a t ih =>
    rw [splitSep] at h
    by_cases hac : a = c
    · rw [if_pos hac] at h
      rcases List.mem_cons.1 h with he | hm
      · subst he; simp
      · obtain ⟨h1, h2⟩ := ih hm
        exact ⟨h1, fun x hx => List.mem_cons_of_mem a (h2 x hx)⟩
    · rw [if_neg hac] at h
      rcases hs : splitSep c t with _ | ⟨p, ps⟩
      · exact absurd hs (splitSep_ne_nil c t)
      · rw [hs] at h
        rcases List.mem_cons.1 h with he | hm
        · subst he
          have hp : p ∈ splitSep c t := by rw [hs]; exact List.mem_cons_self p ps
          obtain ⟨h1, h2⟩ := ih hp
          refine ⟨?_, ?_⟩
          · intro hc
            rcases List.mem_cons.1 hc with he2 | hm2
            · exact hac he2.symm
            · exact h1 hm2
          · intro x hx
            rcases List.mem_cons.1 hx with he2 | hm2
            · exact he2 ▸ List.mem_cons_self a t
            · exact List.mem_cons_of_mem a (h2 x hm2)
        · have hp : q ∈ splitSep c t := by rw [hs]; exact List.mem_cons_of_mem p hm
          obtain ⟨h1, h2⟩ := ih hp
          exact ⟨h1, fun x hx => List.mem_cons_of_mem a (h2 x hx)⟩

theorem mem_joinSep {c : Char} :
    ∀ {L : List (List Char)} {a : Char}, a ∈ joinSep c L →
      a = c ∨ ∃ p ∈ L, a ∈ p
  | [], a, h => by simp [joinSep] at h
  | [p], a, h => by
    rw [joinSep] at h
    exact Or.inr ⟨p, List.mem_singleton_self p, h⟩
  | p :: q :: L, a, h => by
    rw [joinSep_pair] at h
    rcases List.mem_append.1 h with hp | hr
    · exact Or.inr ⟨p, List.mem_cons_self _ _, hp⟩
    · rcases List.mem_cons.1 hr with he | hm
      · exact Or.inl he
      · rcases mem_joinSep hm with he | ⟨r, hr1, hr2⟩
        · exact Or.inl he
        · exact Or.inr ⟨r, List.mem_cons_of_mem p hr1, hr2⟩

/-! ### The name comparison used by the sort -/

theorem lexLeB_cons_iff {a b : Char} {as bs : List Char} :
    lexLeB (a :: as) (b :: bs) = true ↔ a < b ∨ (a = b ∧ lexLeB as bs = true) := by
  rw [lexLeB]
  by_cases h1 : a < b
  · simp [h1]
  · rw [if_neg h1]
    by_cases h2 : a = b
    · simp [h2, h1]
    · simp [h1, h2]

theorem lexLeB_refl (l : List Char) : lexLeB l l = true := by
  induction l with
  | nil => rfl
  | cons a t ih => rw [lexLeB_cons_iff]; exact Or.inr ⟨rfl, ih⟩

theorem lexLeB_total : ∀ l1 l2 : List Char, lexLeB l1 l2 = true ∨ lexLeB l2 l1 = true
  | [], _ => Or.inl rfl
  | _ :: _, [] => Or.inr rfl
  | a :: as, b :: bs => by
    rcases lt_trichotomy a b with h | h | h
    · exact Or.inl (lexLeB_cons_iff.2 (Or.inl h))
    · rcases lexLeB_total as bs with h2 | h2
      · exact Or.inl (lexLeB_cons_iff.2 (Or.inr ⟨h, h2⟩))
      · exact Or.inr (lexLeB_cons_iff.2 (Or.inr ⟨h.symm, h2⟩))
    · exact Or.inr (lexLeB_cons_iff.2 (Or.inl h))

theorem lexLeB_trans : ∀ {l1 l2 l3 : List Char},
    lexLeB l1 l2 = true → lexLeB l2 l3 = true → lexLeB l1 l3 = true
  | [], _, _, _, _ => rfl
  | a :: as, [], _, h1, _ => by simp [lexLeB] at h1
  | a :: as, b :: bs, [], _, h2 => by simp [lexLeB] at h2
  | a :: as, b :: bs, c :: cs, h1, h2 => by
    rcases lexLeB_cons_iff.1 h1 with hab | ⟨hab, hab2⟩ <;>
      rcases lexLeB_cons_iff.1 h2 with hbc | ⟨hbc, hbc2⟩
    · exact lexLeB_cons_iff.2 (Or.inl (lt_trans hab hbc))
    · exact lexLeB_cons_iff.2 (Or.inl (hbc ▸ hab))
    · exact lexLeB_cons_iff.2 (Or.inl (hab ▸ hbc))
    · exact lexLeB_cons_iff.2 (Or.inr ⟨hab.trans hbc, lexLeB_trans hab2 hbc2⟩)

theorem lexLeB_antisymm : ∀ {l1 l2 : List Char},
    lexLeB l1 l2 = true → lexLeB l2 l1 = true → l1 = l2
  | [], [], _, _ => rfl
  | [], _ :: _, _, h2 => by simp [lexLeB] at h2
  | _ :: _, [], h1, _ => by simp [lexLeB] at h1
  | a :: as, b :: bs, h1, h2 => by
    rcases lexLeB_cons_iff.1 h1 with hab | ⟨hab, hab2⟩ <;>
      rcases lexLeB_cons_iff.1 h2 with hba | ⟨hba, hba2⟩
    · exact absurd (lt_trans hab hba) (lt_irrefl a)
    · exact absurd (hba ▸ hab) (lt_irrefl a)
    · exact absurd (hab ▸ hba) (lt_irrefl b)
    · rw [hab, lexLeB_antisymm hab2 hba2]

theorem not_lexLeB_ne {k1 k2 : List Char} (h : ¬ lexLeB k1 k2 = true) : k2 ≠ k1 := by
  intro he
  exact h (he ▸ lexLeB_refl k2)

instance instTotalParamLe : IsTotal ParamP paramLe :=
  ⟨fun a b => lexLeB_total a.1 b.1⟩

instance instTransParamLe : IsTrans ParamP paramLe :=
  ⟨fun _ _ _ h1 h2 => lexLeB_trans h1 h2⟩

/-! ### dedupFirst -/

theorem mem_dedupFirstAux (a : String) :
    ∀ (l seen : List String), a ∈ dedupFirstAux seen l ↔ a ∈ l ∧ a ∉ seen
  | [], seen => by simp [dedupFirstAux]
  | x :: xs, seen => by
    rw [dedupFirstAux]
    by_cases hx : x ∈ seen
    · rw [if_pos hx, mem_dedupFirstAux a xs seen]
      constructor
      · rintro ⟨h1, h2⟩
        exact ⟨List.mem_cons_of_mem x h1, h2⟩
      · rintro ⟨h1, h2⟩
        rcases List.mem_cons.1 h1 with he | hm
        · exact absurd (he ▸ hx) h2
        · exact ⟨hm, h2⟩
    · rw [if_neg hx]
      constructor
      · intro h
        rcases List.mem_cons.1 h with he | hm
        · exact ⟨he ▸ List.mem_cons_self x xs, he ▸ hx⟩
        · obtain ⟨h1, h2⟩ := (mem_dedupFirstAux a xs (x :: seen)).1 hm
          exact ⟨List.mem_cons_of_mem x h1,
            fun hs => h2 (List.mem_cons_of_mem x hs)⟩
      · rintro ⟨h1, h2⟩
        rcases List.mem_cons.1 h1 with he | hm
        · exact he ▸ List.mem_cons_self x _
        · by_cases hax : a = x
          · exact hax ▸ List.mem_cons_self x _
          · refine List.mem_cons_of_mem x ((mem_dedupFirstAux a xs (x :: seen)).2 ⟨hm, ?_⟩)
            intro hs
            rcases List.mem_cons.1 hs with he2 | hm2
            · exact hax he2
            · exact h2 hm2

theorem mem_dedupFirst (a : String) (l : List String) : a ∈ dedupFirst l ↔ a ∈ l := by
  rw [dedupFirst, mem_dedupFirstAux]
  simp

theorem nodup_dedupFirstAux : ∀ (l seen : List String), (dedupFirstAux seen l).Nodup
  | [], _ => List.nodup_nil
  | x :: xs, seen => by
    rw [dedupFirstAux]
    by_cases hx : x ∈ seen
    · rw [if_pos hx]
      exact nodup_dedupFirstAux xs seen
    · rw [if_neg hx]
      refine List.Nodup.cons ?_ (nodup_dedupFirstAux xs (x :: seen))
      intro hmem
      exact ((mem_dedupFirstAux x xs (x :: seen)).1 hmem).2 (List.mem_cons_self x seen)

theorem nodup_dedupFirst (l : List String) : (dedupFirst l).Nodup :=
  nodup_dedupFirstAux l []

/-! ### Query parameter round trip -/

theorem parsePair_of_ok {k v : List Char} (hk : '=' ∉ k) :
    parsePair (k ++ '=' :: v) = (k, v) := by
  unfold parsePair
  have hall : ∀ a ∈ k, (fun c => decide (c ≠ '=')) a = true := by
    intro a ha
    simp only [decide_eq_true_eq]
    exact fun he => hk (he ▸ ha)
  rw [takeWhile_append_all _ hall, dropWhile_append_all _ hall,
    List.takeWhile_cons_of_neg (by simp), List.dropWhile_cons_of_neg (by simp)]
  simp

theorem parseParamsList_serializeParams {ps : List ParamP} (hne : ps ≠ [])
    (hok : ∀ p ∈ ps, ParamOk p) : parseParamsList (serializeParams ps) = ps := by
  unfold parseParamsList serializeParams
  have hsegs : ∀ s ∈ ps.map (fun p => p.1 ++ '=' :: p.2), '&' ∉ s := by
    intro s hs
    obtain ⟨p, hp, he⟩ := List.mem_map.1 hs
    obtain ⟨⟨h1, _, _⟩, h4, _⟩ := hok p hp
    intro hmem
    rw [← he] at hmem
    rcases List.mem_append.1 hmem with hm | hm
    · exact h1 hm
    · rcases List.mem_cons.1 hm with he2 | hm2
      · exact absurd he2 (by decide)
      · exact h4 hm2
  rw [splitSep_joinSep (by simpa using hne) hsegs]
  have hfil : ∀ s ∈ ps.map (fun p => p.1 ++ '=' :: p.2),
      (fun seg => decide (seg ≠ [])) s = true := by
    intro s hs
    obtain ⟨p, _, he⟩ := List.mem_map.1 hs
    simp only [decide_eq_true_eq]
    rw [← he]
    rcases hp1 : p.1 with _ | ⟨a, t⟩ <;> simp
  rw [List.filter_eq_self.2 hfil, List.map_map]
  have : ∀ p ∈ ps, (parsePair ∘ fun p => p.1 ++ '=' :: p.2) p = id p := by
    intro p hp
    obtain ⟨⟨_, h2, _⟩, _⟩ := hok p hp
    simp only [Function.comp_apply, id_eq]
    rw [parsePair_of_ok h2]
  rw [List.map_congr_left this, List.map_id]

/-! ### Round trip: parsing a serialized well-formed URL -/

theorem isDigit_isAuthorityChar {c : Char} (h : c.isDigit = true) : isAuthorityChar c = true := by
  have h1 : c ≠ '/' := by rintro rfl; exact absurd h (by decide)
  have h2 : c ≠ '?' := by rintro rfl; exact absurd h (by decide)
  have h3 : c ≠ '#' := by rintro rfl; exact absurd h (by decide)
  simp [isAuthorityChar, h1, h2, h3]

theorem isDigit_ne_colon {c : Char} (h : c.isDigit = true) : c ≠ ':' := by
  rintro rfl; exact absurd h (by decide)

theorem isDigit_ne_at {c : Char} (h : c.isDigit = true) : c ≠ '@' := by
  rintro rfl; exact absurd h (by decide)

theorem hash_not_mem_serializeParams {ps : List ParamP} (hok : ∀ p ∈ ps, ParamOk p) :
    '#' ∉ serializeParams ps := by
  intro hmem
  rcases mem_joinSep hmem with he | ⟨seg, hseg, hin⟩
  · exact absurd he (by decide)
  · obtain ⟨p, hp, hpe⟩ := List.mem_map.1 hseg
    obtain ⟨⟨_, _, h3⟩, _, h5⟩ := hok p hp
    rw [← hpe] at hin
    rcases List.mem_append.1 hin with hm | hm
    · exact h3 hm
    · rcases List.mem_cons.1 hm with he2 | hm2
      · exact absurd he2 (by decide)
      · exact h5 hm2

theorem parseUrl_eq_parseUrlAux {s sch rest : List Char}
    (hT : s.takeWhile isSchemeChar = sch)
    (hD : s.dropWhile isSchemeChar = ':' :: rest) :
    parseUrl s = parseUrlAux sch rest := by
  unfold parseUrl
  rw [hD, hT]
  simp

theorem parseUrlAux_special {sch : List Char}
    (hsch : sch = ("http").data ∨ sch = ("https").data) (rest : List Char) :
    parseUrlAux sch rest = parseSpecialRest sch rest := by
  rcases hsch with h | h <;> subst h <;> rfl

theorem parseSpecialRest_eval {sch rest auth after : List Char}
    (hauth : rest.takeWhile isAuthorityChar = auth)
    (hafter : rest.dropWhile isAuthorityChar = after) :
    parseSpecialRest sch ('/' :: '/' :: rest) = parseAuthority sch auth after := by
  unfold parseSpecialRest
  simp [hauth, hafter]

theorem parseAuthority_eval {sch auth after host portRaw : List Char}
    (hat : '@' ∉ auth)
    (hhost : auth.takeWhile (fun c => decide (c ≠ ':')) = host)
    (hportRaw : (auth.dropWhile (fun c => decide (c ≠ ':'))).tail = portRaw)
    (hne : host ≠ [])
    (hdig : portRaw.all Char.isDigit = true) :
    parseAuthority sch auth after =
      parseAfterAuth sch host (if isDefaultPort sch portRaw then [] else portRaw) after := by
  unfold parseAuthority
  rw [hhost, hportRaw, if_neg hat, if_neg hne, if_pos hdig]

theorem parseAfterAuth_eval_nil {sch host port after : List Char}
    (hqf : after.dropWhile isPathChar = []) :
    parseAfterAuth sch host port after =
      some (.special sch host port (pathOf after) [] none) := by
  unfold parseAfterAuth
  rw [hqf]

theorem parseAfterAuth_eval_query {sch host port after r2 : List Char}
    (hqf : after.dropWhile isPathChar = '?' :: r2) :
    parseAfterAuth sch host port after =
      some (.special sch host port (pathOf after)
        (parseParamsList (r2.takeWhile (fun x => decide (x ≠ '#'))))
        (if r2.dropWhile (fun x => decide (x ≠ '#')) = [] then none
         else some (r2.dropWhile (fun x => decide (x ≠ '#'))).tail)) := by
  unfold parseAfterAuth
  rw [hqf]
  simp

theorem parseAfterAuth_eval_hash {sch host port after r2 : List Char}
    (hqf : after.dropWhile isPathChar = '#' :: r2) :
    parseAfterAuth sch host port after =
      some (.special sch host port (pathOf after) [] (some r2)) := by
  unfold parseAfterAuth
  rw [hqf]
  simp

theorem parseAfterAuth_round {sch host port pathT : List Char} {ps : List ParamP}
    {frag : Option (List Char)}
    (hpathc : ∀ c ∈ '/' :: pathT, c ≠ '?' ∧ c ≠ '#')
    (hps : ∀ p ∈ ps, ParamOk p) :
    parseAfterAuth sch host port (('/' :: pathT) ++ (queryPart ps ++ fragPart frag)) =
      some (.special sch host port ('/' :: pathT) ps frag) := by
  have hallPath : ∀ a ∈ '/' :: pathT, isPathChar a = true := by
    intro a ha
    obtain ⟨h1, h2⟩ := hpathc a ha
    simp [isPathChar, h1, h2]
  have hqfstep : (queryPart ps ++ fragPart frag).takeWhile isPathChar = [] ∧
      (queryPart ps ++ fragPart frag).dropWhile isPathChar =
        queryPart ps ++ fragPart frag := by
    by_cases hps0 : ps = []
    · subst hps0
      rw [show queryPart ([] : List ParamP) = [] from rfl, List.nil_append]
      cases frag with
      | none => exact ⟨rfl, rfl⟩
      | some f =>
        rw [show fragPart (some f) = '#' :: f from rfl]
        exact ⟨List.takeWhile_cons_of_neg (by decide),
          List.dropWhile_cons_of_neg (by decide)⟩
    · rw [show queryPart ps = '?' :: serializeParams ps from by rw [queryPart, if_neg hps0],
        List.cons_append]
      exact ⟨List.takeWhile_cons_of_neg (by decide),
        List.dropWhile_cons_of_neg (by decide)⟩
  have hT : (('/' :: pathT) ++ (queryPart ps ++ fragPart frag)).takeWhile isPathChar =
      '/' :: pathT := by
    rw [takeWhile_append_all _ hallPath, hqfstep.1, List.append_nil]
  have hD : (('/' :: pathT) ++ (queryPart ps ++ fragPart frag)).dropWhile isPathChar =
      queryPart ps ++ fragPart frag := by
    rw [dropWhile_append_all _ hallPath, hqfstep.2]
  have hpathOf : pathOf (('/' :: pathT) ++ (queryPart ps ++ fragPart frag)) =
      '/' :: pathT := by
    rw [pathOf, hT, if_neg (List.cons_ne_nil _ _)]
  by_cases hps0 : ps = []
  · subst hps0
    cases frag with
    | none =>
      have hnil : (('/' :: pathT) ++ (queryPart [] ++ fragPart none)).dropWhile
          isPathChar = [] := by
        rw [hD]
        rfl
      rw [parseAfterAuth_eval_nil hnil, hpathOf]
    | some f =>
      have hfr : (('/' :: pathT) ++ (queryPart [] ++ fragPart (some f))).dropWhile
          isPathChar = '#' :: f := by
        rw [hD]
        rfl
      rw [parseAfterAuth_eval_hash hfr, hpathOf]
  · have hq2 : queryPart ps ++ fragPart frag =
        '?' :: (serializeParams ps ++ fragPart frag) := by
      rw [queryPart, if_neg hps0, List.cons_append]
    have hfr : (('/' :: pathT) ++ (queryPart ps ++ fragPart frag)).dropWhile isPathChar =
        '?' :: (serializeParams ps ++ fragPart frag) := by
      rw [hD, hq2]
    rw [parseAfterAuth_eval_query hfr, hpathOf]
    have hnoHash : '#' ∉ serializeParams ps := hash_not_mem_serializeParams hps
    have hallNoHash : ∀ a ∈ serializeParams ps, (fun x => decide (x ≠ '#')) a = true := by
      intro a ha
      simp only [decide_eq_true_eq]
      exact fun he => hnoHash (he ▸ ha)
    have hqT : (serializeParams ps ++ fragPart frag).takeWhile
        (fun x => decide (x ≠ '#')) = serializeParams ps := by
      cases frag with
      | none => rw [fragPart, List.append_nil, takeWhile_all hallNoHash]
      | some f =>
        rw [fragPart, takeWhile_append_all _ hallNoHash,
          List.takeWhile_cons_of_neg (by simp), List.append_nil]
    have hqD : (serializeParams ps ++ fragPart frag).dropWhile
        (fun x => decide (x ≠ '#')) = fragPart frag := by
      cases frag with
      | none => rw [fragPart, List.append_nil, dropWhile_all hallNoHash]
      | some f =>
        rw [fragPart, dropWhile_append_all _ hallNoHash,
          List.dropWhile_cons_of_neg (by simp)]
    rw [hqT, hqD, parseParamsList_serializeParams hps0 hps]
    cases frag with
    | none => simp [fragPart]
    | some f => simp [fragPart]

theorem parseUrl_serializeURL {sch host port path : List Char} {ps : List ParamP}
    {frag : Option (List Char)} (h : WF (.special sch host port path ps frag)) :
    parseUrl (serializeURL (.special sch host port path ps frag)) =
      some (.special sch host port path ps frag) := by
  obtain ⟨hsch, ⟨hhne, hhost⟩, ⟨hport, hdef⟩, ⟨hpathh, hpathc⟩, hps⟩ := h
  obtain ⟨pathT, rfl⟩ : ∃ t, path = '/' :: t := by
    cases path with
    | nil => simp at hpathh
    | cons a t =>
      refine ⟨t, ?_⟩
      have ha : a = '/' := by simpa using hpathh
      rw [ha]
  have hallSch : ∀ a ∈ sch, isSchemeChar a = true := by
    rcases hsch with h1 | h1 <;> subst h1 <;> decide
  have hhostAuth : ∀ c ∈ host, isAuthorityChar c = true := by
    intro c hc
    obtain ⟨h1, h2, h3, _, _⟩ := hhost c hc
    simp [isAuthorityChar, h1, h2, h3]
  have hhostColon : ∀ c ∈ host, (fun c => decide (c ≠ ':')) c = true := by
    intro c hc
    simp only [decide_eq_true_eq]
    exact (hhost c hc).2.2.2.1
  have hportAuth : ∀ c ∈ port, isAuthorityChar c = true := fun c hc =>
    isDigit_isAuthorityChar (hport c hc)
  set qf : List Char := queryPart ps ++ fragPart frag with hqfdef
  have hser : serializeURL (.special sch host port ('/' :: pathT) ps frag) =
      sch ++ ':' :: '/' :: '/' :: (host ++ (portPart port ++ (('/' :: pathT) ++ qf))) := rfl
  have hT : (sch ++ ':' :: '/' :: '/' ::
      (host ++ (portPart port ++ (('/' :: pathT) ++ qf)))).takeWhile isSchemeChar = sch := by
    rw [takeWhile_append_all _ hallSch, List.takeWhile_cons_of_neg (by decide),
      List.append_nil]
  have hD : (sch ++ ':' :: '/' :: '/' ::
      (host ++ (portPart port ++ (('/' :: pathT) ++ qf)))).dropWhile isSchemeChar =
      ':' :: '/' :: '/' :: (host ++ (portPart port ++ (('/' :: pathT) ++ qf))) := by
    rw [dropWhile_append_all _ hallSch, List.dropWhile_cons_of_neg (by decide)]
  rw [hser, parseUrl_eq_parseUrlAux hT hD, parseUrlAux_special hsch]
  by_cases hp0 : port = []
  · subst hp0
    have hpp : portPart [] ++ (('/' :: pathT) ++ qf) = ('/' :: pathT) ++ qf := by
      rw [portPart, if_pos rfl, List.nil_append]
    rw [hpp]
    have hauth : (host ++ (('/' :: pathT) ++ qf)).takeWhile isAuthorityChar = host := by
      rw [takeWhile_append_all _ hhostAuth, List.cons_append,
        List.takeWhile_cons_of_neg (by decide), List.append_nil]
    have hafter : (host ++ (('/' :: pathT) ++ qf)).dropWhile isAuthorityChar =
        ('/' :: pathT) ++ qf := by
      rw [dropWhile_append_all _ hhostAuth, List.cons_append,
        List.dropWhile_cons_of_neg (by decide)]
    have hat : '@' ∉ host := fun hm => (hhost _ hm).2.2.2.2 rfl
    have hhostT : host.takeWhile (fun c => decide (c ≠ ':')) = host :=
      takeWhile_all hhostColon
    have hportRaw : (host.dropWhile (fun c => decide (c ≠ ':'))).tail = [] := by
      rw [dropWhile_all hhostColon]
      rfl
    rw [parseSpecialRest_eval hauth hafter,
      parseAuthority_eval hat hhostT hportRaw hhne (by rfl)]
    rw [ite_self]
    exact parseAfterAuth_round hpathc hps
  · have hpp : portPart port ++ (('/' :: pathT) ++ qf) =
        ':' :: (port ++ (('/' :: pathT) ++ qf)) := by
      rw [portPart, if_neg hp0, List.cons_append]
    rw [hpp]
    have hauth : (host ++ ':' :: (port ++ (('/' :: pathT) ++ qf))).takeWhile
        isAuthorityChar = host ++ ':' :: port := by
      rw [takeWhile_append_all _ hhostAuth, List.takeWhile_cons_of_pos (by decide),
        takeWhile_append_all _ hportAuth, List.cons_append,
        List.takeWhile_cons_of_neg (by decide), List.append_nil]
    have hafter : (host ++ ':' :: (port ++ (('/' :: pathT) ++ qf))).dropWhile
        isAuthorityChar = ('/' :: pathT) ++ qf := by
      rw [dropWhile_append_all _ hhostAuth, List.dropWhile_cons_of_pos (by decide),
        dropWhile_append_all _ hportAuth, List.cons_append,
        List.dropWhile_cons_of_neg (by decide)]
    have hat : '@' ∉ host ++ ':' :: port := by
      intro hm
      rcases List.mem_append.1 hm with hm1 | hm1
      · exact (hhost _ hm1).2.2.2.2 rfl
      · rcases List.mem_cons.1 hm1 with he | hm2
        · exact absurd he (by decide)
        · exact isDigit_ne_at (hport _ hm2) rfl
    have hhostT : (host ++ ':' :: port).takeWhile (fun c => decide (c ≠ ':')) = host := by
      rw [takeWhile_append_all _ hhostColon, List.takeWhile_cons_of_neg (by simp),
        List.append_nil]
    have hportRaw : ((host ++ ':' :: port).dropWhile
        (fun c => decide (c ≠ ':'))).tail = port := by
      rw [dropWhile_append_all _ hhostColon, List.dropWhile_cons_of_neg (by simp),
        List.tail_cons]
    have hdigits : port.all Char.isDigit = true := List.all_eq_true.2 hport
    rw [parseSpecialRest_eval hauth hafter,
      parseAuthority_eval hat hhostT hportRaw hhne hdigits]
    have hite : (if isDefaultPort sch port then ([] : List Char) else port) = port := by
      rw [hdef]
      rfl
    rw [hite]
    exact parseAfterAuth_round hpathc hps

/-! ### Every parse result is well-formed -/

theorem dropWhile_head_not {p : Char → Bool} :
    ∀ {l : List Char} {b : Char} {t : List Char}, l.dropWhile p = b :: t → p b = false
  | [], b, t, h => by simp at h
  | a :: l, b, t, h => by
    by_cases hp : p a = true
    · rw [List.dropWhile_cons_of_pos hp] at h
      exact dropWhile_head_not h
    · rw [List.dropWhile_cons_of_neg hp] at h
      injection h with h1 h2
      rw [← h1]
      exact Bool.eq_false_iff.2 hp

theorem takeWhile_eq_cons {p : Char → Bool} :
    ∀ {l : List Char} {b : Char} {t : List Char}, l.takeWhile p = b :: t →
      p b = true ∧ ∃ t2, l = b :: t2
  | [], b, t, h => by simp at h
  | a :: l, b, t, h => by
    by_cases hp : p a = true
    · rw [List.takeWhile_cons_of_pos hp] at h
      injection h with h1 h2
      exact ⟨h1 ▸ hp, l, by rw [h1]⟩
    · rw [List.takeWhile_cons_of_neg hp] at h
      simp at h

theorem path_head_slash {b : Char} (h1 : isPathChar b = true)
    (h2 : isAuthorityChar b = false) : b = '/' := by
  simp only [isPathChar, Bool.and_eq_true, decide_eq_true_eq] at h1
  simp only [isAuthorityChar, Bool.and_eq_false_iff, decide_eq_false_iff_not,
    not_not] at h2
  rcases h2 with h2 | h2
  · rcases h2 with h2 | h2
    · exact h2
    · exact absurd h2 h1.1
  · exact absurd h2 h1.2

theorem parseParamsList_ok {q : List Char} (hq : ∀ a ∈ q, a ≠ '#') :
    ∀ p ∈ parseParamsList q, ParamOk p := by
  intro p hp
  unfold parseParamsList at hp
  obtain ⟨seg, hseg, hpe⟩ := List.mem_map.1 hp
  have hseg2 : seg ∈ splitSep '&' q := (List.mem_filter.1 hseg).1
  obtain ⟨hamp, hsub⟩ := mem_splitSep hseg2
  have hkey : p.1 = seg.takeWhile (fun c => decide (c ≠ '=')) := by
    rw [← hpe]
    rfl
  have hval : p.2 = (seg.dropWhile (fun c => decide (c ≠ '='))).tail := by
    rw [← hpe]
    rfl
  have hksub : ∀ a ∈ p.1, a ∈ seg := by
    intro a ha
    rw [hkey] at ha
    exact (List.takeWhile_sublist _).subset ha
  have hvsub : ∀ a ∈ p.2, a ∈ seg := by
    intro a ha
    rw [hval] at ha
    exact (List.dropWhile_sublist _).subset ((List.tail_sublist _).subset ha)
  refine ⟨⟨?_, ?_, ?_⟩, ?_, ?_⟩
  · exact fun hm => hamp (hksub _ hm)
  · intro hm
    rw [hkey] at hm
    have := List.mem_takeWhile_imp hm
    simp at this
  · exact fun hm => hq _ (hsub _ (hksub _ hm)) rfl
  · exact fun hm => hamp (hvsub _ hm)
  · exact fun hm => hq _ (hsub _ (hvsub _ hm)) rfl

theorem isDefaultPort_nil (sch : List Char) : isDefaultPort sch [] = false := by
  unfold isDefaultPort
  rw [show decide (([] : List Char) = ("80").data) = false from rfl,
    show decide (([] : List Char) = ("443").data) = false from rfl]
  simp

theorem pathOf_ok {after : List Char}
    (hheads : ∀ b t, after = b :: t → isAuthorityChar b = false) :
    PathOk (pathOf after) := by
  unfold pathOf
  rcases hp0 : after.takeWhile isPathChar with _ | ⟨b, t⟩
  · rw [if_pos rfl]
    exact ⟨rfl, by decide⟩
  · rw [if_neg (by simp)]
    obtain ⟨hb, t2, he⟩ := takeWhile_eq_cons hp0
    have hb2 : b = '/' := path_head_slash hb (hheads b t2 he)
    refine ⟨by simp [hb2], ?_⟩
    intro c hc
    have hc2 : c ∈ after.takeWhile isPathChar := by
      rw [hp0]
      exact hc
    have hm := List.mem_takeWhile_imp hc2
    simp only [isPathChar, Bool.and_eq_true, decide_eq_true_eq] at hm
    exact hm

theorem parseAfterAuth_wf {sch host port after : List Char} {u : URLObj}
    (hsch : sch = ("http").data ∨ sch = ("https").data)
    (hhost : HostOk host) (hport : PortOk sch port)
    (hheads : ∀ b t, after = b :: t → isAuthorityChar b = false)
    (h : parseAfterAuth sch host port after = some u) : WF u := by
  have hpath : PathOk (pathOf after) := pathOf_ok hheads
  unfold parseAfterAuth at h
  split at h
  · rw [Option.some.injEq] at h
    subst h
    exact ⟨hsch, hhost, hport, hpath, by simp⟩
  · split at h
    · rw [Option.some.injEq] at h
      subst h
      refine ⟨hsch, hhost, hport, hpath, parseParamsList_ok ?_⟩
      intro a ha
      have hm := List.mem_takeWhile_imp ha
      simpa using hm
    · split at h
      · rw [Option.some.injEq] at h
        subst h
        exact ⟨hsch, hhost, hport, hpath, by simp⟩
      · rw [Option.some.injEq] at h
        subst h
        exact ⟨hsch, hhost, hport, hpath, by simp⟩

theorem portOk_of_digits {sch x : List Char} (hdig : x.all Char.isDigit = true) :
    PortOk sch (if isDefaultPort sch x then [] else x) := by
  by_cases hd : isDefaultPort sch x = true
  · rw [if_pos hd]
    exact ⟨by simp, isDefaultPort_nil sch⟩
  · rw [if_neg hd]
    exact ⟨List.all_eq_true.1 hdig, Bool.eq_false_iff.2 hd⟩

theorem parseAuthority_wf {sch auth after : List Char} {u : URLObj}
    (hsch : sch = ("http").data ∨ sch = ("https").data)
    (hachars : ∀ c ∈ auth, isAuthorityChar c = true)
    (hheads : ∀ b t, after = b :: t → isAuthorityChar b = false)
    (h : parseAuthority sch auth after = some u) : WF u := by
  unfold parseAuthority at h
  split at h
  · exact absurd h (by simp)
  · split at h
    · exact absurd h (by simp)
    · split at h
      · rename_i hat hne hdig
        refine parseAfterAuth_wf hsch ⟨hne, ?_⟩ (portOk_of_digits hdig) hheads h
        intro c hc
        have hcne := List.mem_takeWhile_imp hc
        simp only [decide_eq_true_eq] at hcne
        have hcauth : c ∈ auth := (List.takeWhile_sublist _).subset hc
        have hA := hachars c hcauth
        simp only [isAuthorityChar, Bool.and_eq_true, decide_eq_true_eq] at hA
        exact ⟨hA.1.1, hA.1.2, hA.2, hcne, fun he => hat (he ▸ hcauth)⟩
      · exact absurd h (by simp)

theorem parseSpecialRest_wf {sch s : List Char} {u : URLObj}
    (hsch : sch = ("http").data ∨ sch = ("https").data)
    (h : parseSpecialRest sch s = some u) : WF u := by
  unfold parseSpecialRest at h
  split at h
  · split at h
    · refine parseAuthority_wf hsch ?_ ?_ h
      · intro c hc
        exact List.mem_takeWhile_imp hc
      · intro b t hbt
        exact dropWhile_head_not hbt
    · exact absurd h (by simp)
  · exact absurd h (by simp)

theorem parseUrlAux_wf {sch rest : List Char} {u : URLObj}
    (h : parseUrlAux sch rest = some u) : WF u := by
  unfold parseUrlAux at h
  split at h
  · exact absurd h (by simp)
  · split at h
    · split at h
      · rename_i hsch
        exact parseSpecialRest_wf hsch h
      · rw [Option.some.injEq] at h
        subst h
        trivial
    · exact absurd h (by simp)

theorem parseUrl_wf {s : List Char} {u : URLObj} (h : parseUrl s = some u) : WF u := by
  unfold parseUrl at h
  split at h
  · split at h
    · exact parseUrlAux_wf h
    · exact absurd h (by simp)
  · exact absurd h (by simp)

theorem parseAfterAuth_shape {sch host port after : List Char} {u : URLObj}
    (h : parseAfterAuth sch host port after = some u) :
    ∃ path ps frag, u = .special sch host port path ps frag := by
  unfold parseAfterAuth at h
  split at h
  · rw [Option.some.injEq] at h
    exact ⟨_, _, _, h.symm⟩
  · split at h
    · rw [Option.some.injEq] at h
      exact ⟨_, _, _, h.symm⟩
    · split at h
      · rw [Option.some.injEq] at h
        exact ⟨_, _, _, h.symm⟩
      · rw [Option.some.injEq] at h
        exact ⟨_, _, _, h.symm⟩

theorem parseAuthority_shape {sch auth after : List Char} {u : URLObj}
    (h : parseAuthority sch auth after = some u) :
    ∃ host port path ps frag, u = .special sch host port path ps frag := by
  unfold parseAuthority at h
  split at h
  · exact absurd h (by simp)
  · split at h
    · exact absurd h (by simp)
    · split at h
      · obtain ⟨path, ps, frag, he⟩ := parseAfterAuth_shape h
        exact ⟨_, _, path, ps, frag, he⟩
      · exact absurd h (by simp)

theorem parseSpecialRest_shape {sch s : List Char} {u : URLObj}
    (h : parseSpecialRest sch s = some u) :
    ∃ host port path ps frag, u = .special sch host port path ps frag := by
  unfold parseSpecialRest at h
  split at h
  · split at h
    · exact parseAuthority_shape h
    · exact absurd h (by simp)
  · exact absurd h (by simp)

theorem parseUrl_nonspecial_scheme {s sch rest : List Char}
    (h : parseUrl s = some (.nonspecial sch rest)) :
    ¬(sch = ("http").data ∨ sch = ("https").data) := by
  unfold parseUrl at h
  split at h
  · split at h
    · unfold parseUrlAux at h
      split at h
      · exact absurd h (by simp)
      · split at h
        · split at h
          · rename_i hs2
            obtain ⟨host, port, path, ps, frag, he⟩ := parseSpecialRest_shape h
            exact absurd he (by simp)
          · rename_i hs2
            rw [Option.some.injEq, URLObj.nonspecial.injEq] at h
            exact h.1 ▸ hs2
        · exact absurd h (by simp)
    · exact absurd h (by simp)
  · exact absurd h (by simp)

theorem protocolOf_mem_valid_iff (u : URLObj) :
    protocolOf u ∈ VALID_PROTOCOLS ↔
      (schemeOf u = ("http").data ∨ schemeOf u = ("https").data) := by
  unfold protocolOf VALID_PROTOCOLS
  simp only [List.mem_cons, List.mem_singleton]
  constructor
  · rintro (he | he | he)
    · left
      exact List.append_cancel_right
        (he.trans (show ("http:").data = ("http").data ++ [':'] from rfl))
    · right
      exact List.append_cancel_right
        (he.trans (show ("https:").data = ("https").data ++ [':'] from rfl))
    · exact absurd he (by simp at he)
  · rintro (he | he) <;> rw [he]
    · exact Or.inl rfl
    · exact Or.inr (Or.inl rfl)

/-! ### The stable sort: per-name filters are preserved, and a sorted list
is determined by its per-name filters -/

theorem orderedInsert_filter_key (a : ParamP) (l : List ParamP) (k : List Char) :
    (l.orderedInsert paramLe a).filter (fun p => decide (p.1 = k)) =
      if a.1 = k then a :: l.filter (fun p => decide (p.1 = k))
      else l.filter (fun p => decide (p.1 = k)) := by
  induction l with
  | nil =>
    by_cases hk : a.1 = k <;> simp [List.orderedInsert, List.filter_cons, hk]
  | cons b t ih =>
    rw [List.orderedInsert]
    by_cases hab : paramLe a b
    · rw [if_pos hab]
      by_cases hk : a.1 = k <;> simp [List.filter_cons, hk]
    · rw [if_neg hab]
      have hbne : b.1 ≠ a.1 := not_lexLeB_ne hab
      by_cases hk : a.1 = k
      · have hbk : ¬ b.1 = k := fun he => hbne (he.trans hk.symm)
        simp [List.filter_cons, hbk, hk, ih]
      · simp [List.filter_cons, hk, ih]

theorem sortParams_filter_key (ps : List ParamP) (k : List Char) :
    (sortParams ps).filter (fun p => decide (p.1 = k)) =
      ps.filter (fun p => decide (p.1 = k)) := by
  induction ps with
  | nil => rfl
  | cons a t ih =>
    rw [sortParams, List.insertionSort, orderedInsert_filter_key]
    rw [sortParams] at ih
    by_cases hk : a.1 = k
    · rw [if_pos hk, ih, List.filter_cons]
      simp [hk]
    · rw [if_neg hk, ih, List.filter_cons]
      simp [hk]

theorem eq_of_sorted_of_filter_key :
    ∀ {m1 m2 : List ParamP}, List.Sorted paramLe m1 → List.Sorted paramLe m2 →
      (∀ k, m1.filter (fun p => decide (p.1 = k)) = m2.filter (fun p => decide (p.1 = k))) →
      m1 = m2
  | [], [], _, _, _ => rfl
  | [], b :: t2, _, _, hf => by
    have h := hf b.1
    rw [List.filter_nil, List.filter_cons] at h
    simp at h
  | a :: t1, [], _, _, hf => by
    have h := hf a.1
    rw [List.filter_nil, List.filter_cons] at h
    simp at h
  | a :: t1, b :: t2, h1, h2, hf => by
    have hab : a = b := by
      by_cases hba : b.1 = a.1
      · have h := hf a.1
        simp only [List.filter_cons] at h
        rw [if_pos (by simp), if_pos (by simp [hba])] at h
        exact (List.cons.inj h).1
      · exfalso
        have ha2 : a ∈ t2 := by
          have h := hf a.1
          simp only [List.filter_cons] at h
          rw [if_pos (by simp), if_neg (by simp [hba])] at h
          have hmem : a ∈ t2.filter (fun p => decide (p.1 = a.1)) := by
            rw [← h]
            exact List.mem_cons_self a _
          exact (List.mem_filter.1 hmem).1
        have hb1 : b ∈ t1 := by
          have h := hf b.1
          simp only [List.filter_cons] at h
          rw [if_neg (by simp only [decide_eq_true_eq]; exact fun he => hba he.symm),
            if_pos (by simp)] at h
          have hmem : b ∈ t1.filter (fun p => decide (p.1 = b.1)) := by
            rw [h]
            exact List.mem_cons_self b _
          exact (List.mem_filter.1 hmem).1
        have hba2 : paramLe b a := List.rel_of_sorted_cons h2 a ha2
        have hab2 : paramLe a b := List.rel_of_sorted_cons h1 b hb1
        exact hba (lexLeB_antisymm hba2 hab2)
    subst hab
    have htails : t1 = t2 := by
      refine eq_of_sorted_of_filter_key h1.of_cons h2.of_cons ?_
      intro k
      have h := hf k
      simp only [List.filter_cons] at h
      by_cases hk : a.1 = k
      · rw [if_pos (by simp [hk]), if_pos (by simp [hk])] at h
        exact (List.cons.inj h).2
      · rw [if_neg (by simp [hk]), if_neg (by simp [hk])] at h
        exact h
    rw [htails]

/-! ### The ignore filter and the canonical form -/

theorem filterIgnored_eq_filter (ps : List ParamP) (ign : List (List Char)) :
    filterIgnored ps ign =
      ps.filter (fun p =>
        !(decide (0 < ign.length) && decide (lowerKey p.1 ∈ ign.map lowerKey))) := by
  unfold filterIgnored
  by_cases hlen : 0 < ign.length
  · rw [if_pos hlen]
    refine List.filter_congr ?_
    intro p hp
    have hmem : p.1 ∈ ps.map Prod.fst := List.mem_map.2 ⟨p, hp, rfl⟩
    by_cases hin : lowerKey p.1 ∈ ign.map lowerKey
    · have hfil : p.1 ∈ (ps.map Prod.fst).filter
          (fun k => decide (lowerKey k ∈ ign.map lowerKey)) :=
        List.mem_filter.2 ⟨hmem, by simp [hin]⟩
      rw [decide_eq_false (not_not_intro hfil), decide_eq_true hlen, decide_eq_true hin]
      rfl
    · have hnotin : p.1 ∉ (ps.map Prod.fst).filter
          (fun k => decide (lowerKey k ∈ ign.map lowerKey)) := by
        intro hc
        exact hin (by simpa using (List.mem_filter.1 hc).2)
      rw [decide_eq_true hnotin, decide_eq_true hlen, decide_eq_false hin]
      rfl
  · rw [if_neg hlen]
    symm
    refine List.filter_eq_self.2 ?_
    intro a _
    simp [hlen]

theorem sortParams_sorted (ps : List ParamP) : List.Sorted paramLe (sortParams ps) :=
  List.sorted_insertionSort paramLe ps

theorem sortParams_perm (ps : List ParamP) : (sortParams ps).Perm ps :=
  List.perm_insertionSort paramLe ps

theorem mem_sortParams {ps : List ParamP} {p : ParamP} : p ∈ sortParams ps ↔ p ∈ ps :=
  (sortParams_perm ps).mem_iff

theorem hashOf_ne (u : URLObj) : hashOf u ≠ ['#'] := by
  cases u with
  | special sch host port path ps frag =>
    cases frag with
    | none => simp [hashOf]
    | some f =>
      cases f with
      | nil => simp [hashOf]
      | cons c t => simp [hashOf]
  | nonspecial sch rest => simp [hashOf]

/-- The branch `if (urlObj.hash === '#')` of the source is dead: the `hash`
getter never reads exactly "#", so `normalizeObj` always keeps the parsed
fragment (including an empty one). -/
theorem normalizeObj_special (sch host port path : List Char) (ps : List ParamP)
    (frag : Option (List Char)) (ign : List (List Char)) :
    normalizeObj (.special sch host port path ps frag) ign =
      .special sch host port path (sortParams (filterIgnored ps ign)) frag := by
  show URLObj.special sch host port path (sortParams (filterIgnored ps ign))
      (if hashOf (.special sch host port path ps frag) = ['#'] then none else frag) =
    URLObj.special sch host port path (sortParams (filterIgnored ps ign)) frag
  rw [if_neg (hashOf_ne _)]

theorem WF_normalizeObj {u : URLObj} (ign : List (List Char)) (h : WF u) :
    WF (normalizeObj u ign) := by
  cases u with
  | special sch host port path ps frag =>
    rw [normalizeObj_special]
    obtain ⟨h1, h2, h3, h4, h5⟩ := h
    refine ⟨h1, h2, h3, h4, ?_⟩
    intro p hp
    have hp2 : p ∈ filterIgnored ps ign := mem_sortParams.1 hp
    rw [filterIgnored_eq_filter] at hp2
    exact h5 p (List.mem_filter.1 hp2).1
  | nonspecial sch rest => trivial

theorem normalizeObj_idem (u : URLObj) (ign : List (List Char)) :
    normalizeObj (normalizeObj u ign) ign = normalizeObj u ign := by
  cases u with
  | nonspecial sch rest => rfl
  | special sch host port path ps frag =>
    rw [normalizeObj_special, normalizeObj_special]
    have hfix : filterIgnored (sortParams (filterIgnored ps ign)) ign =
        sortParams (filterIgnored ps ign) := by
      rw [filterIgnored_eq_filter]
      refine List.filter_eq_self.2 ?_
      intro p hp
      have hp2 : p ∈ filterIgnored ps ign := mem_sortParams.1 hp
      rw [filterIgnored_eq_filter] at hp2
      exact (List.mem_filter.1 hp2).2
    rw [hfix,
      show sortParams (sortParams (filterIgnored ps ign)) = sortParams (filterIgnored ps ign)
        from (sortParams_sorted (filterIgnored ps ign)).insertionSort_eq]

theorem data_mk (l : List Char) : (String.mk l).data = l := rfl

theorem normalizeUrl_parse_none {url : String} (ign : List String)
    (h : parseUrl url.data = none) : normalizeUrl url ign = url := by
  unfold normalizeUrl
  rw [h]

theorem normalizeUrl_parse_invalid {url : String} {u : URLObj} (ign : List String)
    (h : parseUrl url.data = some u) (hv : protocolOf u ∉ VALID_PROTOCOLS) :
    normalizeUrl url ign = url := by
  unfold normalizeUrl
  rw [h]
  simp [hv]

theorem normalizeUrl_parse_valid {url : String} {u : URLObj} (ign : List String)
    (h : parseUrl url.data = some u) (hv : protocolOf u ∈ VALID_PROTOCOLS) :
    normalizeUrl url ign =
      String.mk (serializeURL (normalizeObj u (ign.map String.data))) := by
  unfold normalizeUrl
  rw [h]
  simp [hv]

theorem normalizeUrl_round {url : String} {sch host port path : List Char} {ps : List ParamP}
    {frag : Option (List Char)} (ign : List String)
    (h : parseUrl url.data = some (.special sch host port path ps frag)) :
    normalizeUrl url ign =
      String.mk (serializeURL (.special sch host port path
        (sortParams (filterIgnored ps (ign.map String.data))) frag)) ∧
    parseUrl (normalizeUrl url ign).data =
      some (.special sch host port path
        (sortParams (filterIgnored ps (ign.map String.data))) frag) := by
  have hwf : WF (.special sch host port path ps frag) := parseUrl_wf h
  have hv : protocolOf (.special sch host port path ps frag) ∈ VALID_PROTOCOLS :=
    (protocolOf_mem_valid_iff _).2 hwf.1
  have hwf2 := WF_normalizeObj (ign.map String.data) hwf
  rw [normalizeObj_special] at hwf2
  have h1 := normalizeUrl_parse_valid ign h hv
  rw [normalizeObj_special] at h1
  refine ⟨h1, ?_⟩
  rw [h1, data_mk]
  exact parseUrl_serializeURL hwf2

theorem normalizeUrl_idem (url : String) (ign : List String) :
    normalizeUrl (normalizeUrl url ign) ign = normalizeUrl url ign := by
  rcases hp : parseUrl url.data with _ | u
  · rw [normalizeUrl_parse_none ign hp, normalizeUrl_parse_none ign hp]
  · rcases u with ⟨sch, host, port, path, ps, frag⟩ | ⟨sch, rest⟩
    · have hround := normalizeUrl_round ign hp
      have hv2 : protocolOf (URLObj.special sch host port path
          (sortParams (filterIgnored ps (ign.map String.data))) frag) ∈ VALID_PROTOCOLS :=
        (protocolOf_mem_valid_iff _).2 (parseUrl_wf hp).1
      rw [normalizeUrl_parse_valid ign hround.2 hv2, hround.1]
      rw [show URLObj.special sch host port path
            (sortParams (filterIgnored ps (ign.map String.data))) frag =
          normalizeObj (.special sch host port path ps frag) (ign.map String.data)
          from (normalizeObj_special sch host port path ps frag _).symm,
        normalizeObj_idem]
    · have hnsch := parseUrl_nonspecial_scheme hp
      have hv : protocolOf (URLObj.nonspecial sch rest) ∉ VALID_PROTOCOLS := by
        rw [protocolOf_mem_valid_iff]
        exact hnsch
      rw [normalizeUrl_parse_invalid ign hp hv, normalizeUrl_parse_invalid ign hp hv]

/-! ### The matcher: membership characterization -/

theorem isValidHttpUrl_iff {url : String} :
    isValidHttpUrl url = true ↔
      ∃ u, parseUrl url.data = some u ∧ protocolOf u ∈ VALID_PROTOCOLS := by
  unfold isValidHttpUrl
  rcases hp : parseUrl url.data with _ | u
  · simp
  · simp

theorem isValidHttpUrl_parse_special {url : String} (h : isValidHttpUrl url = true) :
    ∃ sch host port path ps frag,
      parseUrl url.data = some (.special sch host port path ps frag) := by
  obtain ⟨u, hp, hv⟩ := isValidHttpUrl_iff.1 h
  rcases u with ⟨sch, host, port, path, ps, frag⟩ | ⟨sch, rest⟩
  · exact ⟨sch, host, port, path, ps, frag, hp⟩
  · exfalso
    rw [protocolOf_mem_valid_iff] at hv
    exact parseUrl_nonspecial_scheme hp hv

theorem domainOf_parse_special {url : String} {sch host port path : List Char}
    {ps : List ParamP} {frag : Option (List Char)}
    (h : parseUrl url.data = some (.special sch host port path ps frag)) :
    domainOf url = String.mk host := by
  unfold domainOf extractDomain
  rw [h]
  rfl

theorem domainOf_ne_empty_of_valid {url : String} (h : isValidHttpUrl url = true) :
    domainOf url ≠ "" := by
  obtain ⟨sch, host, port, path, ps, frag, hp⟩ := isValidHttpUrl_parse_special h
  have hwf := parseUrl_wf hp
  rw [domainOf_parse_special hp]
  intro he
  have : host = [] := by
    have := congrArg String.data he
    simpa using this
  exact hwf.2.1.1 this

theorem validCandidates_mem {urls : List String} {u : String} :
    u ∈ validCandidates urls ↔ u ∈ urls ∧ isValidHttpUrl u = true := by
  unfold validCandidates
  rw [List.mem_filter]
  constructor
  · rintro ⟨h1, h2⟩
    rw [Bool.and_eq_true] at h2
    exact ⟨h1, h2.1⟩
  · rintro ⟨h1, h2⟩
    refine ⟨h1, ?_⟩
    rw [Bool.and_eq_true]
    exact ⟨h2, by simp [domainOf_ne_empty_of_valid h2]⟩

theorem mem_checkVisitedUrls {urls ign : List String}
    {history : String → Option (List String)} {u : String} :
    u ∈ checkVisitedUrls urls ign history ↔
      u ∈ urls ∧ isValidHttpUrl u = true ∧
        ∃ h ∈ queryHistoryByDomain history (domainOf u),
          normalizeUrl h ign = normalizeUrl u ign := by
  unfold checkVisitedUrls
  rw [mem_dedupFirst, List.mem_flatMap]
  constructor
  · rintro ⟨d, hd, hu⟩
    unfold domainMatches at hu
    rw [List.mem_filter] at hu
    obtain ⟨hg, hmatch⟩ := hu
    unfold domainGroup at hg
    rw [List.mem_filter] at hg
    obtain ⟨hv, hdom⟩ := hg
    have hdom2 : domainOf u = d := by simpa using hdom
    obtain ⟨hu2, hval⟩ := validCandidates_mem.1 hv
    refine ⟨hu2, hval, ?_⟩
    simp only [decide_eq_true_eq] at hmatch
    obtain ⟨h0, hh0, he⟩ := List.mem_map.1 hmatch
    exact ⟨h0, by rw [hdom2]; exact hh0, he⟩
  · rintro ⟨hu2, hval, h0, hh0, he⟩
    refine ⟨domainOf u, ?_, ?_⟩
    · unfold groupDomains
      rw [mem_dedupFirst]
      exact List.mem_map.2 ⟨u, validCandidates_mem.2 ⟨hu2, hval⟩, rfl⟩
    · unfold domainMatches
      rw [List.mem_filter]
      refine ⟨?_, ?_⟩
      · unfold domainGroup
        rw [List.mem_filter]
        exact ⟨validCandidates_mem.2 ⟨hu2, hval⟩, by simp⟩
      · simp only [decide_eq_true_eq]
        exact List.mem_map.2 ⟨h0, hh0, he⟩

/-! ### Counting across the domain groups -/

theorem count_domainGroup_eq (urls : List String) (u : String) :
    List.count u (domainGroup urls (domainOf u)) =
      List.count u (validCandidates urls) := by
  unfold domainGroup
  exact List.count_filter (by simp)

theorem count_domainGroup_ne (urls : List String) (u d : String) (h : domainOf u ≠ d) :
    List.count u (domainGroup urls d) = 0 := by
  rw [List.count_eq_zero]
  intro hm
  unfold domainGroup at hm
  rw [List.mem_filter] at hm
  exact h (by simpa using hm.2)

theorem count_flatMap_domainGroup (urls : List String) (u : String) :
    ∀ ds : List String, ds.Nodup →
      List.count u (ds.flatMap (domainGroup urls)) =
        if domainOf u ∈ ds then List.count u (validCandidates urls) else 0
  | [], _ => by simp
  | d :: ds, hnd => by
    rw [List.flatMap_cons, List.count_append,
      count_flatMap_domainGroup urls u ds hnd.of_cons]
    by_cases hd : domainOf u = d
    · have hnin : domainOf u ∉ ds := hd ▸ (List.nodup_cons.1 hnd).1
      rw [if_neg hnin, if_pos (by rw [hd]; exact List.mem_cons_self d ds), ← hd,
        count_domainGroup_eq]
      simp
    · rw [count_domainGroup_ne urls u d hd]
      by_cases hds : domainOf u ∈ ds
      · rw [if_pos hds, if_pos (List.mem_cons_of_mem d hds)]
        simp
      · rw [if_neg hds, if_neg (by simp [hd, hds])]

theorem count_allGroups (urls : List String) (u : String) :
    List.count u (allGroups urls) = List.count u (validCandidates urls) := by
  unfold allGroups
  rw [count_flatMap_domainGroup urls u (groupDomains urls) (nodup_dedupFirst _)]
  by_cases hm : u ∈ validCandidates urls
  · rw [if_pos (show domainOf u ∈ groupDomains urls from by
      unfold groupDomains
      rw [mem_dedupFirst]
      exact List.mem_map.2 ⟨u, hm, rfl⟩)]
  · rw [List.count_eq_zero.2 hm, ite_self]

theorem mem_allGroups {urls : List String} {u : String} :
    u ∈ allGroups urls ↔ u ∈ validCandidates urls := by
  constructor
  · intro h
    have := count_allGroups urls u
    rw [← List.count_pos_iff] at h ⊢
    rw [← this]
    exact h
  · intro h
    rw [← List.count_pos_iff] at h ⊢
    rw [count_allGroups]
    exact h

theorem handleCheckVisited_enabled {cfg : Config} (urls : List String)
    (history : String → Option (List String)) (h : cfg.enabled = true) :
    handleCheckVisited cfg urls history =
      (checkVisitedUrls urls cfg.ignoreParams history, cfg) := by
  unfold handleCheckVisited
  rw [h]
  simp

theorem filter_key_filterIgnored (ps : List ParamP) (ignL : List (List Char))
    (k : List Char) :
    (filterIgnored ps ignL).filter (fun p => decide (p.1 = k)) =
      (ps.filter (fun p => decide (p.1 = k))).filter
        (fun p => !(decide (0 < ignL.length) && decide (lowerKey p.1 ∈ ignL.map lowerKey))) := by
  rw [filterIgnored_eq_filter, List.filter_filter, List.filter_filter]
  exact List.filter_congr (fun a _ => Bool.and_comm _ _)

theorem filterIgnored_eq_of_equiv {ps1 ps2 : List ParamP} {ignL : List (List Char)}
    (hpt : List.Forall₂ (fun p q : ParamP => p.1 = q.1 ∧
      (lowerKey p.1 ∉ ignL.map lowerKey → p.2 = q.2)) ps1 ps2) :
    filterIgnored ps1 ignL = filterIgnored ps2 ignL := by
  rw [filterIgnored_eq_filter, filterIgnored_eq_filter]
  induction hpt with
  | nil => rfl
  | cons h t ih =>
    rename_i a b l1 l2
    obtain ⟨hk, hv⟩ := h
    rw [List.filter_cons, List.filter_cons]
    have hcond : (!(decide (0 < ignL.length) && decide (lowerKey b.1 ∈ ignL.map lowerKey))) =
        (!(decide (0 < ignL.length) && decide (lowerKey a.1 ∈ ignL.map lowerKey))) := by
      rw [← hk]
    rw [hcond]
    by_cases hkeep :
        (!(decide (0 < ignL.length) && decide (lowerKey a.1 ∈ ignL.map lowerKey))) = true
    · rw [if_pos hkeep, if_pos hkeep, ih]
      have hnin : lowerKey a.1 ∉ ignL.map lowerKey := by
        intro hin
        by_cases hlen : 0 < ignL.length
        · rw [decide_eq_true hlen, decide_eq_true hin] at hkeep
          exact absurd hkeep (by decide)
        · have : ignL = [] := List.length_eq_zero.1 (Nat.eq_zero_of_not_pos hlen)
          rw [this] at hin
          simp at hin
      have hab : a = b := Prod.ext hk (hv hnin)
      rw [hab]
    · rw [if_neg hkeep, if_neg hkeep, ih]

/-! ### The claims -/

/-- C1: `checkVisitedUrls` reports a candidate string as visited iff it is a
valid http(s) URL from the input batch and some URL returned by the history
query for the candidate's domain has an equal canonical key under the same
ignore-set; what appears in the result is the original candidate string
itself (membership is of the untouched input string, not its canonical key). -/
theorem checkVisitedUrls_reports_iff (urls ignoreParams : List String)
    (history : String → Option (List String)) (u : String) :
    u ∈ checkVisitedUrls urls ignoreParams history ↔
      u ∈ urls ∧ isValidHttpUrl u = true ∧
        ∃ h ∈ queryHistoryByDomain history (domainOf u),
          normalizeUrl h ignoreParams = normalizeUrl u ignoreParams :=
  mem_checkVisitedUrls

/-- C2: when the history query for one domain fails (the store answers with
nothing) while every other domain's query is unchanged, the enabled handler
reports no URL of the failing domain and reports every URL of every other
domain exactly as it would have without the failure — one domain's failure
never degrades the rest of the batch. -/
theorem checkVisited_failedDomain_isolated (cfg : Config) (urls : List String)
    (history history2 : String → Option (List String)) (d u : String)
    (hen : cfg.enabled = true) (hfail : history2 d = none)
    (hsame : ∀ e, e ≠ d → history2 e = history e) :
    (domainOf u = d → u ∉ (handleCheckVisited cfg urls history2).1) ∧
    (domainOf u ≠ d →
      (u ∈ (handleCheckVisited cfg urls history2).1 ↔
        u ∈ (handleCheckVisited cfg urls history).1)) := by
  rw [handleCheckVisited_enabled urls history2 hen, handleCheckVisited_enabled urls history hen]
  constructor
  · intro hd hmem
    obtain ⟨_, _, h0, hh0, _⟩ := mem_checkVisitedUrls.1 hmem
    rw [hd] at hh0
    unfold queryHistoryByDomain at hh0
    rw [hfail] at hh0
    simp at hh0
  · intro hd
    rw [mem_checkVisitedUrls, mem_checkVisitedUrls]
    have hsameq : queryHistoryByDomain history2 (domainOf u) =
        queryHistoryByDomain history (domainOf u) := by
      unfold queryHistoryByDomain
      rw [hsame _ hd]
    rw [hsameq]

theorem checkVisited_failedDomain_isolated_witness :
    ("https://x.com/a" ∈ (handleCheckVisited DEFAULT_CONFIG
        ["https://x.com/a", "https://y.com/b"]
        (fun e => if e = "y.com" then none
          else if e = "x.com" then some ["https://x.com/a"] else some [])).1 ↔
      "https://x.com/a" ∈ (handleCheckVisited DEFAULT_CONFIG
        ["https://x.com/a", "https://y.com/b"]
        (fun e => if e = "x.com" then some ["https://x.com/a"] else some [])).1) ∧
    "https://y.com/b" ∉ (handleCheckVisited DEFAULT_CONFIG
        ["https://x.com/a", "https://y.com/b"]
        (fun e => if e = "y.com" then none
          else if e = "x.com" then some ["https://x.com/a"] else some [])).1 := by
  refine ⟨?_, ?_⟩
  · exact (checkVisited_failedDomain_isolated DEFAULT_CONFIG
      ["https://x.com/a", "https://y.com/b"]
      (fun e => if e = "x.com" then some ["https://x.com/a"] else some [])
      (fun e => if e = "y.com" then none
        else if e = "x.com" then some ["https://x.com/a"] else some [])
      ("y.com") ("https://x.com/a") rfl (by decide)
      (fun e he => if_neg he)).2 (by decide)
  · exact (checkVisited_failedDomain_isolated DEFAULT_CONFIG
      ["https://x.com/a", "https://y.com/b"]
      (fun e => if e = "x.com" then some ["https://x.com/a"] else some [])
      (fun e => if e = "y.com" then none
        else if e = "x.com" then some ["https://x.com/a"] else some [])
      ("y.com") ("https://y.com/b") rfl (by decide)
      (fun e he => if_neg he)).1 (by decide)

/-- C3: with the feature disabled, the handler answers with an empty visited
set, and its whole answer is independent of the history store — no history
query can influence it, modelling that none is made. -/
theorem handleCheckVisited_disabled (cfg : Config) (urls : List String)
    (history1 history2 : String → Option (List String)) (hd : cfg.enabled = false) :
    (handleCheckVisited cfg urls history1).1 = [] ∧
      handleCheckVisited cfg urls history1 = handleCheckVisited cfg urls history2 := by
  unfold handleCheckVisited
  rw [hd]
  simp

theorem handleCheckVisited_disabled_witness :
    (handleCheckVisited
        { enabled := false, ignoreParams := [], highlightTextColor := "#C58AF9" }
        ["https://x.com/a"] (fun _ => some ["https://x.com/a"])).1 = [] ∧
      handleCheckVisited
        { enabled := false, ignoreParams := [], highlightTextColor := "#C58AF9" }
        ["https://x.com/a"] (fun _ => some ["https://x.com/a"]) =
      handleCheckVisited
        { enabled := false, ignoreParams := [], highlightTextColor := "#C58AF9" }
        ["https://x.com/a"] (fun _ => none) :=
  handleCheckVisited_disabled _ _ _ _ rfl

/-- C4 as stated is false at this input: the two URLs carry the same query
parameters up to a permutation (one that swaps two parameters sharing the
name `a`), yet they normalize to different canonical keys, because the
platform sort is stable. -/
theorem normalizeUrl_sameName_perm_cex :
    (parseUrl ("https://x.com/a?a=1&a=2").data).map paramsOf =
      some [(("a").data, ("1").data), (("a").data, ("2").data)] ∧
    (parseUrl ("https://x.com/a?a=2&a=1").data).map paramsOf =
      some [(("a").data, ("2").data), (("a").data, ("1").data)] ∧
    List.Perm [(("a").data, ("1").data), (("a").data, ("2").data)]
      [(("a").data, ("2").data), (("a").data, ("1").data)] ∧
    normalizeUrl ("https://x.com/a?a=1&a=2") [] ≠
      normalizeUrl ("https://x.com/a?a=2&a=1") [] := by
  refine ⟨by decide, by decide, by decide, by decide⟩

/-- C4 (amended): for two valid http(s) URLs that agree on everything except
the order of their query parameters, where the permutation preserves the
relative order of parameters sharing a name (stated as: every per-name filter
of the parameter lists agrees — which covers every permutation of
distinctly-named parameters), normalization yields the same CanonicalKey
under any ignore-set. -/
theorem normalizeUrl_perm_invariant (s1 s2 : String) (ign : List String)
    (sch host port path : List Char) (ps1 ps2 : List ParamP)
    (frag : Option (List Char))
    (h1 : parseUrl s1.data = some (.special sch host port path ps1 frag))
    (h2 : parseUrl s2.data = some (.special sch host port path ps2 frag))
    (hfilters : ∀ k, ps1.filter (fun p => decide (p.1 = k)) =
      ps2.filter (fun p => decide (p.1 = k))) :
    normalizeUrl s1 ign = normalizeUrl s2 ign := by
  rw [(normalizeUrl_round ign h1).1, (normalizeUrl_round ign h2).1]
  have hsort : sortParams (filterIgnored ps1 (ign.map String.data)) =
      sortParams (filterIgnored ps2 (ign.map String.data)) := by
    refine eq_of_sorted_of_filter_key (sortParams_sorted _) (sortParams_sorted _) ?_
    intro k
    rw [sortParams_filter_key, sortParams_filter_key, filter_key_filterIgnored,
      filter_key_filterIgnored, hfilters k]
  rw [hsort]

theorem normalizeUrl_perm_invariant_witness :
    normalizeUrl ("https://x.com/a?b=2&a=1") [] =
      normalizeUrl ("https://x.com/a?a=1&b=2") [] := by
  refine normalizeUrl_perm_invariant ("https://x.com/a?b=2&a=1") ("https://x.com/a?a=1&b=2")
    [] (("https").data) (("x.com").data) [] (("/a").data)
    [(("b").data, ("2").data), (("a").data, ("1").data)]
    [(("a").data, ("1").data), (("b").data, ("2").data)] none
    (by decide) (by decide) ?_
  intro k
  by_cases hb : ("b").data = k
  · by_cases ha : ("a").data = k
    · exact absurd (ha.trans hb.symm) (by decide)
    · simp [List.filter_cons, hb, ha]
  · by_cases ha : ("a").data = k
    · simp [List.filter_cons, hb, ha]
    · simp [List.filter_cons, hb, ha]

/-- C5: normalization removes every query parameter whose lower-cased name is
in the lower-cased ignore set (removal is case-insensitive), and the resulting
CanonicalKey never consults the values of ignored parameters: two URLs equal
except for values of ignored parameters normalize to the same key, and no
surviving parameter of the canonical form carries an ignored name. -/
theorem normalizeUrl_ignored_values_irrelevant (s1 s2 : String) (ign : List String)
    (sch host port path : List Char) (ps1 ps2 : List ParamP)
    (frag : Option (List Char))
    (h1 : parseUrl s1.data = some (.special sch host port path ps1 frag))
    (h2 : parseUrl s2.data = some (.special sch host port path ps2 frag))
    (hpt : List.Forall₂ (fun p q : ParamP => p.1 = q.1 ∧
      (lowerKey p.1 ∉ (ign.map String.data).map lowerKey → p.2 = q.2)) ps1 ps2) :
    normalizeUrl s1 ign = normalizeUrl s2 ign ∧
      ∀ p ∈ sortParams (filterIgnored ps1 (ign.map String.data)),
        lowerKey p.1 ∉ (ign.map String.data).map lowerKey := by
  constructor
  · rw [(normalizeUrl_round ign h1).1, (normalizeUrl_round ign h2).1,
      filterIgnored_eq_of_equiv hpt]
  · intro p hp
    have hp2 := mem_sortParams.1 hp
    rw [filterIgnored_eq_filter] at hp2
    have hpred := (List.mem_filter.1 hp2).2
    intro hin
    by_cases hlen : 0 < (ign.map String.data).length
    · rw [decide_eq_true hlen, decide_eq_true hin] at hpred
      exact absurd hpred (by decide)
    · have hnil : (ign.map String.data) = [] :=
        List.length_eq_zero.1 (Nat.eq_zero_of_not_pos hlen)
      rw [hnil] at hin
      simp at hin

theorem normalizeUrl_ignored_values_irrelevant_witness :
    normalizeUrl ("https://x.com/a?UTM_Source=abc") ["utm_source"] =
      normalizeUrl ("https://x.com/a?UTM_Source=zzz") ["utm_source"] ∧
    normalizeUrl ("https://x.com/a?UTM_Source=abc") ["utm_source"] = "https://x.com/a" := by
  refine ⟨?_, by decide⟩
  refine (normalizeUrl_ignored_values_irrelevant
    ("https://x.com/a?UTM_Source=abc") ("https://x.com/a?UTM_Source=zzz") ["utm_source"]
    (("https").data) (("x.com").data) [] (("/a").data)
    [(("UTM_Source").data, ("abc").data)] [(("UTM_Source").data, ("zzz").data)] none
    (by decide) (by decide) ?_).1
  refine List.Forall₂.cons ⟨rfl, ?_⟩ List.Forall₂.nil
  intro hnin
  exact absurd (by decide) hnin

/-- C6: normalization is idempotent — normalizing an already-normalized URL
string changes nothing, for every URL string and every ignore-set. -/
theorem normalizeUrl_idempotent (u : String) (I : List String) :
    normalizeUrl (normalizeUrl u I) I = normalizeUrl u I :=
  normalizeUrl_idem u I

/-- C7: a string that fails to parse, or parses with a scheme other than
http or https, passes through `normalizeUrl` unchanged (the total function
models that no exception escapes); and `isValidHttpUrl` is true exactly when
the string parses with an http or https scheme. -/
theorem isValidHttpUrl_spec_passthrough (s : String) (ign : List String) :
    ((parseUrl s.data = none ∨
        ∃ u, parseUrl s.data = some u ∧ protocolOf u ∉ VALID_PROTOCOLS) →
      normalizeUrl s ign = s) ∧
    (isValidHttpUrl s = true ↔
      ∃ u, parseUrl s.data = some u ∧ protocolOf u ∈ VALID_PROTOCOLS) := by
  refine ⟨?_, isValidHttpUrl_iff⟩
  rintro (hp | ⟨u, hp, hnv⟩)
  · exact normalizeUrl_parse_none ign hp
  · exact normalizeUrl_parse_invalid ign hp hnv

theorem isValidHttpUrl_spec_passthrough_witness :
    normalizeUrl ("javascript:void(0)") [] = "javascript:void(0)" ∧
    isValidHttpUrl ("javascript:void(0)") = false ∧
    normalizeUrl ("not a url") [] = "not a url" := by
  refine ⟨?_, by decide, ?_⟩
  · exact (isValidHttpUrl_spec_passthrough ("javascript:void(0)") []).1
      (Or.inr ⟨URLObj.nonspecial (("javascript").data) (("void(0)").data),
        by decide, by decide⟩)
  · exact (isValidHttpUrl_spec_passthrough ("not a url") []).1 (Or.inl (by decide))

/-- C8: contrary to the claim (and to the comment in the source), the code
never drops an empty trailing fragment: the `hash` getter reads "" (not "#")
for an empty fragment, so the guard `urlObj.hash === '#'` is dead and the
lone `#` survives normalization, giving the two URLs different canonical
keys; a non-empty fragment is preserved as the claim says. -/
theorem normalizeUrl_empty_fragment_kept :
    normalizeUrl ("https://x.com/a#") [] = "https://x.com/a#" ∧
    normalizeUrl ("https://x.com/a") [] = "https://x.com/a" ∧
    normalizeUrl ("https://x.com/a#frag") [] = "https://x.com/a#frag" ∧
    normalizeUrl ("https://x.com/a#") [] ≠ normalizeUrl ("https://x.com/a") [] := by
  refine ⟨by decide, by decide, by decide, by decide⟩

/-- C9 as stated is false at this input: a valid candidate listed twice in
the batch occurs twice across the domain groups, not exactly once. -/
theorem domainGroups_duplicate_cex :
    "https://x.com/a" ∈ validCandidates ["https://x.com/a", "https://x.com/a"] ∧
    List.count "https://x.com/a"
      (allGroups ["https://x.com/a", "https://x.com/a"]) = 2 := by
  refine ⟨by decide, by decide⟩

/-- C9 (amended): the domain grouping step partitions the valid candidates
without loss or duplication as a multiset — the concatenation of all domain
groups is a permutation of the valid-candidate list, so taken by original URL
the union of the groups equals the deduplicated valid candidates, with each
URL occurring once per input occurrence (exactly once for a duplicate-free
input) and only in the group of its own domain. -/
theorem domainGroups_partition (urls : List String) :
    (allGroups urls).Perm (validCandidates urls) ∧
      ∀ u, u ∈ allGroups urls ↔ u ∈ dedupFirst (validCandidates urls) := by
  constructor
  · exact List.perm_iff_count.2 (fun u => count_allGroups urls u)
  · intro u
    rw [mem_dedupFirst]
    exact mem_allGroups

/-- C10: for every input batch, ignore-set and history response, the visited
set is a subset of the input list and contains no URL more than once. -/
theorem checkVisitedUrls_subset_nodup (urls ignoreParams : List String)
    (history : String → Option (List String)) :
    checkVisitedUrls urls ignoreParams history ⊆ urls ∧
      (checkVisitedUrls urls ignoreParams history).Nodup := by
  constructor
  · intro u hu
    exact (mem_checkVisitedUrls.1 hu).1
  · exact nodup_dedupFirst _
